import Mathlib

/-!
Shallow embedding of the subtyping engine of the `type-inference` repository
(files `src/lib.rs`, `src/context.rs`, `src/ctxmember.rs`, `src/types.rs`).

Rust `panic!` is modelled by the `Res.fatal` outcome; the general recursion of
`apply_context` (which is not structurally recursive, and diverges on cyclic
contexts) and of `is_subtype` (which calls `apply_context`) is embedded with an
explicit step budget: `Res.fuelOut` reports that the budget ran out, and with a
large enough budget the functions compute exactly what the Rust code computes.
All other definitions are direct transcriptions of the source.
-/

namespace Infer

/-- Outcome of running a piece of the engine: a normal return, a fatal abort
(Rust `panic` with its message), or exhaustion of the step budget used to
embed general recursion. -/
inductive Res (α : Type) where
  | ok (a : α)
  | fatal (msg : String)
  | fuelOut
deriving DecidableEq

/-- `Type` from `src/types.rs` (named `Ty` because `Type` is a Lean keyword).
Type and existential-variable names are strings, as in the source. -/
inductive Ty where
  | unit
  | var (v : String)
  | evar (v : String)
  | arr (a b : Ty)
  | all (v : String) (t : Ty)
deriving DecidableEq

/-- `CtxMember` from `src/ctxmember.rs`. -/
inductive CtxMember where
  | var (v : String)
  | assumption (x : String) (t : Ty)
  | evar (a : String)
  | solved (a : String) (t : Ty)
  | marker (a : String)
deriving DecidableEq

/-- `Context` from `src/context.rs`: an ordered sequence of members
(`Vec<CtxMember>`, index 0 leftmost). -/
abbrev Context := List CtxMember

/-- `Context::add`: append to the right end. -/
def add (ctx : Context) (m : CtxMember) : Context := ctx ++ [m]

/-- `Context::elem`: exact structural membership (`Vec::contains`). -/
def elem (ctx : Context) (m : CtxMember) : Bool := ctx.contains m

/-- `Context::drop1`: remove the element at index 0 (`Vec::remove(0)`; the
Rust code panics on an empty vector, a case its only caller `hole` never
produces because the remainder handed to it starts with the found member). -/
def drop1 (ctx : Context) : Context := ctx.tail

/-- `Context::split_at`: if `c` occurs, the prefix strictly left of its first
occurrence and the remainder from it on (`take_while` / `skip_while`). -/
def split_at (ctx : Context) (c : CtxMember) : Option (Context × Context) :=
  if elem ctx c then
    some (ctx.takeWhile (fun e => e != c), ctx.dropWhile (fun e => e != c))
  else none

/-- `Context::hole`: `split_at` then drop the member itself from the front of
the remainder. -/
def hole (ctx : Context) (m : CtxMember) : Option (Context × Context) :=
  match split_at ctx m with
  | some (p, r) => some (p, drop1 r)
  | none => none

/-- `CtxMember::get_type`. -/
def get_type : CtxMember → Option Ty
  | .assumption _ t => some t
  | .solved _ t => some t
  | _ => none

/-- The closure used by `solution` (`src/lib.rs`) and `Context::has_solution`
to filter for solutions of a given existential. -/
def solved_matches (e : String) : CtxMember → Bool
  | .solved e2 _ => e2 == e
  | _ => false

/-- The closure used by `assump` (`src/lib.rs`) and `Context::has_assumption`
to filter for assumptions about a given term variable. -/
def assump_matches (e : String) : CtxMember → Bool
  | .assumption e2 _ => e2 == e
  | _ => false

/-- `solution` from `src/lib.rs` (identical to `Context::has_solution`):
zero matches yield `None`, one match yields its carried type, and more than
one match is a fatal internal error (Rust `panic`). -/
def solution (ctx : Context) (e : String) : Res (Option Ty) :=
  match ctx.filter (solved_matches e) with
  | [] => .ok none
  | [m] => .ok (get_type m)
  | _ => .fatal "ctxSolution: internal error - multiple types for variable"

/-- `assump` from `src/lib.rs` (identical to `Context::has_assumption`). -/
def assump (ctx : Context) (e : String) : Res (Option Ty) :=
  match ctx.filter (assump_matches e) with
  | [] => .ok none
  | [m] => .ok (get_type m)
  | _ => .fatal "ctxSolution: internal error - multiple types for variable"

/-- `Type::is_mono` from `src/types.rs`: no `All` subterm. -/
def is_mono : Ty → Bool
  | .unit => true
  | .var _ => true
  | .evar _ => true
  | .arr a b => is_mono a && is_mono b
  | .all _ _ => false

/-- `is_type_well_formed` from `src/lib.rs` (identical to
`Context::is_type_well_formed`); the `||` and `&&` of the source
short-circuit, so `solution` is only consulted when no unsolved `EVar`
entry exists, and the right arrow component only when the left one held. -/
def is_type_well_formed (ctx : Context) : Ty → Res Bool
  | .unit => .ok true
  | .var v => .ok (elem ctx (.var v))
  | .evar v =>
    if elem ctx (.evar v) then .ok true
    else
      match solution ctx v with
      | .ok o => .ok o.isSome
      | .fatal m => .fatal m
      | .fuelOut => .fuelOut
  | .arr x y =>
    match is_type_well_formed ctx x with
    | .ok true => is_type_well_formed ctx y
    | .ok false => .ok false
    | .fatal m => .fatal m
    | .fuelOut => .fuelOut
  | .all v t => is_type_well_formed (add ctx (.var v)) t

/-- `CheckState` from `src/lib.rs`: a context plus the fresh-name counter. -/
structure CheckState where
  ctx : Context
  nextEVar : Nat
deriving DecidableEq

/-- `CheckState::fresh_evar`: produce the next name and the advanced state. -/
def fresh_evar (s : CheckState) : String × CheckState :=
  ("e" ++ toString s.nextEVar, { s with nextEVar := s.nextEVar + 1 })

/-- `apply_context` from `src/lib.rs` (identical to
`Context::apply_context`), with an explicit step budget: the Rust recursion
through `solution` is not structurally decreasing (and diverges on cyclic
contexts), so every recursive call consumes one unit of fuel. -/
def apply_context : Nat → Context → Ty → Res Ty
  | 0, _, _ => .fuelOut
  | _+1, _, .unit => .ok .unit
  | _+1, _, .var v => .ok (.var v)
  | fuel+1, c, .evar alpha =>
    match solution c alpha with
    | .ok (some tau) => apply_context fuel c tau
    | .ok none => .ok (.evar alpha)
    | .fatal m => .fatal m
    | .fuelOut => .fuelOut
  | fuel+1, c, .arr a b =>
    match apply_context fuel c a with
    | .ok a2 =>
      match apply_context fuel c b with
      | .ok b2 => .ok (.arr a2 b2)
      | .fatal m => .fatal m
      | .fuelOut => .fuelOut
    | .fatal m => .fatal m
    | .fuelOut => .fuelOut
  | fuel+1, c, .all v t =>
    match apply_context fuel c t with
    | .ok t2 => .ok (.all v t2)
    | .fatal m => .fatal m
    | .fuelOut => .fuelOut

/-- `is_subtype` from `src/lib.rs`, with the same step budget (its `Arr` case
recurses on results of `apply_context`, which need not be subterms). The
match arms are in source order; a failed `a == b` guard in Rust falls through
to the final catch-all, which is what the `else` branches return. -/
def is_subtype : Nat → CheckState → Ty → Ty → Res (Option CheckState)
  | 0, _, _, _ => .fuelOut
  | _+1, s, .unit, .unit => .ok (some s)
  | _+1, s, .var a, .var b => if a = b then .ok (some s) else .ok none
  | _+1, s, .evar a, .evar b => if a = b then .ok (some s) else .ok none
  | fuel+1, s, .arr a b, .arr c d =>
    match is_subtype fuel s c a with
    | .ok (some s2) =>
      match apply_context fuel s2.ctx b with
      | .ok b2 =>
        match apply_context fuel s2.ctx d with
        | .ok d2 => is_subtype fuel s2 b2 d2
        | .fatal m => .fatal m
        | .fuelOut => .fuelOut
      | .fatal m => .fatal m
      | .fuelOut => .fuelOut
    | .ok none => .ok none
    | .fatal m => .fatal m
    | .fuelOut => .fuelOut
  | _+1, _, .all _ _, _ => .ok none
  | _+1, _, _, _ => .ok none

/-- Existential variable names occurring in a type (a specification device
for stating the context ordering invariant). -/
def evars : Ty → List String
  | .unit => []
  | .var _ => []
  | .evar a => [a]
  | .arr a b => evars a ++ evars b
  | .all _ t => evars t

/-- The spec's ordering invariant, restricted to what the termination of
`apply_context` consumes: every `Solved` entry for an existential mentioned
in a stored solution lies strictly to the left of the entry storing it, so
substitution chains move strictly leftward. -/
def ordering_inv (ctx : Context) : Prop :=
  ∀ (i : Nat) alpha tau, ctx[i]? = some (CtxMember.solved alpha tau) →
    ∀ beta, beta ∈ evars tau →
      ∀ (j : Nat) sigma, ctx[j]? = some (CtxMember.solved beta sigma) → j < i

/-- Name solved by a context member, if any. -/
def solved_name : CtxMember → Option String
  | .solved a _ => some a
  | _ => none

/-- The spec's uniqueness invariant restricted to solutions: no two `Solved`
entries share a name (decidable, for concrete witnesses). -/
def uniq_solved : Context → Bool
  | [] => true
  | m :: rest =>
    (match solved_name m with
     | none => true
     | some a => rest.all (fun m2 => solved_name m2 != some a)) && uniq_solved rest

/-- All solutions stored in the context are monotypes (the spec's data-model
constraint on `Solved` entries). -/
def solved_mono (ctx : Context) : Prop :=
  ∀ alpha tau, CtxMember.solved alpha tau ∈ ctx → is_mono tau = true

/-! ### Basic lemmas about lookups -/

theorem elem_iff {ctx : Context} {m : CtxMember} : elem ctx m = true ↔ m ∈ ctx :=
  List.elem_iff

theorem solution_ne_fuelOut (ctx : Context) (e : String) : solution ctx e ≠ .fuelOut := by
  unfold solution
  cases h : ctx.filter (solved_matches e) with
  | nil => simp
  | cons m rest => cases rest <;> simp

theorem solution_ok_some {ctx : Context} {e : String} {tau : Ty}
    (h : solution ctx e = .ok (some tau)) : CtxMember.solved e tau ∈ ctx := by
  unfold solution at h
  cases hf : ctx.filter (solved_matches e) with
  | nil => rw [hf] at h; simp at h
  | cons m rest =>
    cases rest with
    | nil =>
      rw [hf] at h
      have hm : m ∈ ctx.filter (solved_matches e) := by rw [hf]; exact List.mem_singleton.mpr rfl
      obtain ⟨hmem, hp⟩ := List.mem_filter.mp hm
      cases m with
      | solved e2 t =>
        have he : e2 = e := by simpa [solved_matches] using hp
        subst he
        have ht : t = tau := by simpa [get_type] using h
        subst ht
        exact hmem
      | var v => simp [solved_matches] at hp
      | assumption x t => simp [solved_matches] at hp
      | evar a => simp [solved_matches] at hp
      | marker a => simp [solved_matches] at hp
    | cons m2 rest2 => rw [hf] at h; simp at h

theorem solution_ok_some_idx {ctx : Context} {e : String} {tau : Ty}
    (h : solution ctx e = .ok (some tau)) :
    ∃ j : Nat, ctx[j]? = some (CtxMember.solved e tau) :=
  List.getElem?_of_mem (solution_ok_some h)

/-! ### Fuel monotonicity -/

theorem apply_context_mono : ∀ (fuel fuel' : Nat) (c : Context) (t : Ty),
    fuel ≤ fuel' → apply_context fuel c t ≠ .fuelOut →
    apply_context fuel' c t = apply_context fuel c t := by
  intro fuel
  induction fuel with
  | zero => intro fuel' c t h hne; exact absurd rfl hne
  | succ fuel ih =>
    intro fuel' c t hle hne
    obtain ⟨f', rfl⟩ : ∃ f', fuel' = f' + 1 := ⟨fuel' - 1, by omega⟩
    have hf : fuel ≤ f' := by omega
    cases t with
    | unit => simp [apply_context]
    | var v => simp [apply_context]
    | evar alpha =>
      simp only [apply_context] at hne ⊢
      cases hsol : solution c alpha with
      | ok o =>
        cases o with
        | some tau => rw [hsol] at hne; exact ih f' c tau hf hne
        | none => rfl
      | fatal m => rfl
      | fuelOut => exact absurd hsol (solution_ne_fuelOut c alpha)
    | arr a b =>
      simp only [apply_context] at hne ⊢
      cases ha : apply_context fuel c a with
      | fuelOut => rw [ha] at hne; simp at hne
      | fatal m => rw [ih f' c a hf (by simp [ha]), ha]
      | ok a2 =>
        rw [ih f' c a hf (by simp [ha]), ha]
        cases hb : apply_context fuel c b with
        | fuelOut => rw [ha, hb] at hne; simp at hne
        | fatal m => rw [ih f' c b hf (by simp [hb]), hb]
        | ok b2 => rw [ih f' c b hf (by simp [hb]), hb]
    | all v t =>
      simp only [apply_context] at hne ⊢
      cases ht : apply_context fuel c t with
      | fuelOut => rw [ht] at hne; simp at hne
      | fatal m => rw [ih f' c t hf (by simp [ht]), ht]
      | ok t2 => rw [ih f' c t hf (by simp [ht]), ht]

theorem is_subtype_mono : ∀ (fuel fuel' : Nat) (s : CheckState) (a b : Ty),
    fuel ≤ fuel' → is_subtype fuel s a b ≠ .fuelOut →
    is_subtype fuel' s a b = is_subtype fuel s a b := by
  intro fuel
  induction fuel with
  | zero => intro fuel' s a b h hne; exact absurd rfl hne
  | succ fuel ih =>
    intro fuel' s a b hle hne
    obtain ⟨f', rfl⟩ : ∃ f', fuel' = f' + 1 := ⟨fuel' - 1, by omega⟩
    have hf : fuel ≤ f' := by omega
    cases a with
    | unit => cases b <;> simp [is_subtype]
    | var v => cases b <;> simp [is_subtype]
    | evar v => cases b <;> simp [is_subtype]
    | all v t => cases b <;> simp [is_subtype]
    | arr a1 a2 =>
      cases b with
      | unit => simp [is_subtype]
      | var v => simp [is_subtype]
      | evar v => simp [is_subtype]
      | all v t => simp [is_subtype]
      | arr b1 b2 =>
        simp only [is_subtype] at hne ⊢
        cases h1 : is_subtype fuel s b1 a1 with
        | fuelOut => rw [h1] at hne; simp at hne
        | fatal m =>
          have e1 : is_subtype f' s b1 a1 = .fatal m := by
            rw [ih f' s b1 a1 hf (by simp [h1]), h1]
          simp only [e1, h1]
        | ok o =>
          have e1 : is_subtype f' s b1 a1 = .ok o := by
            rw [ih f' s b1 a1 hf (by simp [h1]), h1]
          cases o with
          | none => simp only [e1, h1]
          | some s2 =>
            simp only [e1, h1] at hne ⊢
            cases h2 : apply_context fuel s2.ctx a2 with
            | fuelOut => rw [h2] at hne; simp at hne
            | fatal m =>
              have e2 : apply_context f' s2.ctx a2 = .fatal m := by
                rw [apply_context_mono fuel f' s2.ctx a2 hf (by simp [h2]), h2]
              simp only [e2, h2]
            | ok a2' =>
              have e2 : apply_context f' s2.ctx a2 = .ok a2' := by
                rw [apply_context_mono fuel f' s2.ctx a2 hf (by simp [h2]), h2]
              simp only [e2, h2] at hne ⊢
              cases h3 : apply_context fuel s2.ctx b2 with
              | fuelOut => rw [h3] at hne; simp at hne
              | fatal m =>
                have e3 : apply_context f' s2.ctx b2 = .fatal m := by
                  rw [apply_context_mono fuel f' s2.ctx b2 hf (by simp [h3]), h3]
                simp only [e3, h3]
              | ok b2' =>
                have e3 : apply_context f' s2.ctx b2 = .ok b2' := by
                  rw [apply_context_mono fuel f' s2.ctx b2 hf (by simp [h3]), h3]
                simp only [e3, h3] at hne ⊢
                exact ih f' s2 a2' b2' hf hne

/-! ### Termination of `apply_context` under the ordering invariant -/

theorem getElem_some_lt {l : Context} {j : Nat} {m : CtxMember}
    (h : l[j]? = some m) : j < l.length := by
  by_contra hl
  rw [List.getElem?_eq_none (by omega)] at h
  exact Option.noConfusion h

theorem apply_context_exists_fuel (ctx : Context) (hinv : ordering_inv ctx) :
    ∀ (p : Nat) (t : Ty),
      (∀ beta, beta ∈ evars t → ∀ (j : Nat) sigma,
        ctx[j]? = some (CtxMember.solved beta sigma) → j < p) →
      ∃ fuel, apply_context fuel ctx t ≠ .fuelOut := by
  intro p
  induction p using Nat.strong_induction_on with
  | _ p ih =>
    intro t
    induction t with
    | unit => intro hb; exact ⟨1, by simp [apply_context]⟩
    | var v => intro hb; exact ⟨1, by simp [apply_context]⟩
    | evar beta =>
      intro hb
      cases hsol : solution ctx beta with
      | fatal m => exact ⟨1, by simp [apply_context, hsol]⟩
      | fuelOut => exact absurd hsol (solution_ne_fuelOut ctx beta)
      | ok o =>
        cases o with
        | none => exact ⟨1, by simp [apply_context, hsol]⟩
        | some tau =>
          obtain ⟨j, hj⟩ := solution_ok_some_idx hsol
          have hjp : j < p := hb beta (by simp [evars]) j tau hj
          obtain ⟨fuel, hfuel⟩ := ih j hjp tau
            (fun gamma hg k sigma hk => hinv j beta tau hj gamma hg k sigma hk)
          refine ⟨fuel + 1, ?_⟩
          simp only [apply_context, hsol]
          exact hfuel
    | arr a b iha ihb =>
      intro hb
      obtain ⟨f1, h1⟩ := iha (fun beta hbeta => hb beta (by simp [evars]; exact Or.inl hbeta))
      obtain ⟨f2, h2⟩ := ihb (fun beta hbeta => hb beta (by simp [evars]; exact Or.inr hbeta))
      refine ⟨max f1 f2 + 1, ?_⟩
      have e1 : apply_context (max f1 f2) ctx a = apply_context f1 ctx a :=
        apply_context_mono f1 (max f1 f2) ctx a (le_max_left f1 f2) h1
      have e2 : apply_context (max f1 f2) ctx b = apply_context f2 ctx b :=
        apply_context_mono f2 (max f1 f2) ctx b (le_max_right f1 f2) h2
      simp only [apply_context, e1, e2]
      cases ha2 : apply_context f1 ctx a with
      | fuelOut => exact absurd ha2 h1
      | fatal m => simp
      | ok a2 =>
        cases hb2 : apply_context f2 ctx b with
        | fuelOut => exact absurd hb2 h2
        | fatal m => simp
        | ok b2 => simp
    | all v t iht =>
      intro hb
      obtain ⟨f1, h1⟩ := iht (fun beta hbeta => hb beta (by simpa [evars] using hbeta))
      refine ⟨f1 + 1, ?_⟩
      simp only [apply_context]
      cases ht2 : apply_context f1 ctx t with
      | fuelOut => exact absurd ht2 h1
      | fatal m => simp
      | ok t2 => simp

/-- Claim C9: for every context satisfying the ordering invariant (each
`Solved` entry's stored type mentions only existentials whose `Solved`
entries lie strictly to its left) and every type `t`, `apply_context ctx t`
terminates: with some finite budget `N` the computation completes (it does
not run out of fuel), and any larger budget returns the same value, because
substitution chains through `Solved` entries move strictly leftward in the
context and are therefore acyclic. -/
theorem c9_apply_context_terminates (ctx : Context) (h : ordering_inv ctx) (t : Ty) :
    ∃ N, apply_context N ctx t ≠ .fuelOut ∧
      ∀ fuel, N ≤ fuel → apply_context fuel ctx t = apply_context N ctx t := by
  obtain ⟨N, hN⟩ := apply_context_exists_fuel ctx h ctx.length t
    (fun beta _ j sigma hj => getElem_some_lt hj)
  exact ⟨N, hN, fun fuel hf => apply_context_mono N fuel ctx t hf hN⟩

/-- Witness for C9 at the concrete context `[Solved("a", Unit)]` and type
`EVar("a")`. -/
theorem c9_witness :
    ordering_inv [CtxMember.solved "a" Ty.unit] ∧
    ∃ N, apply_context N [CtxMember.solved "a" Ty.unit] (.evar "a") ≠ .fuelOut ∧
      ∀ fuel, N ≤ fuel →
        apply_context fuel [CtxMember.solved "a" Ty.unit] (.evar "a") =
        apply_context N [CtxMember.solved "a" Ty.unit] (.evar "a") := by
  have hinv : ordering_inv [CtxMember.solved "a" Ty.unit] := by
    intro i alpha tau hi beta hbeta j sigma hj
    cases i with
    | zero =>
      simp at hi
      obtain ⟨h1, h2⟩ := hi
      subst h2
      simp [evars] at hbeta
    | succ n => simp at hi
  exact ⟨hinv, c9_apply_context_terminates [CtxMember.solved "a" Ty.unit] hinv (.evar "a")⟩

/-- Claim C10: on every success path the implemented `is_subtype` returns the
input state entirely unchanged: the returned context equals the input context
and the fresh-name counter is not advanced. -/
theorem c10_success_state_unchanged :
    ∀ (fuel : Nat) (s : CheckState) (a b : Ty) (s2 : CheckState),
      is_subtype fuel s a b = .ok (some s2) →
      s2.ctx = s.ctx ∧ s2.nextEVar = s.nextEVar := by
  intro fuel
  induction fuel with
  | zero => intro s a b s2 h; simp [is_subtype] at h
  | succ fuel ih =>
    intro s a b s2 h
    cases a with
    | unit =>
      cases b with
      | unit =>
        have hs : some s = some s2 := by simpa [is_subtype] using h
        cases hs
        exact ⟨rfl, rfl⟩
      | var v => simp [is_subtype] at h
      | evar v => simp [is_subtype] at h
      | arr x y => simp [is_subtype] at h
      | all v t => simp [is_subtype] at h
    | var v1 =>
      cases b with
      | var v2 =>
        by_cases hv : v1 = v2
        · have hs : some s = some s2 := by simpa [is_subtype, hv] using h
          cases hs
          exact ⟨rfl, rfl⟩
        · simp [is_subtype, hv] at h
      | unit => simp [is_subtype] at h
      | evar v => simp [is_subtype] at h
      | arr x y => simp [is_subtype] at h
      | all v t => simp [is_subtype] at h
    | evar v1 =>
      cases b with
      | evar v2 =>
        by_cases hv : v1 = v2
        · have hs : some s = some s2 := by simpa [is_subtype, hv] using h
          cases hs
          exact ⟨rfl, rfl⟩
        · simp [is_subtype, hv] at h
      | unit => simp [is_subtype] at h
      | var v => simp [is_subtype] at h
      | arr x y => simp [is_subtype] at h
      | all v t => simp [is_subtype] at h
    | all v t => cases b <;> simp [is_subtype] at h
    | arr a1 a2 =>
      cases b with
      | unit => simp [is_subtype] at h
      | var v => simp [is_subtype] at h
      | evar v => simp [is_subtype] at h
      | all v t => simp [is_subtype] at h
      | arr b1 b2 =>
        simp only [is_subtype] at h
        cases h1 : is_subtype fuel s b1 a1 with
        | fuelOut => rw [h1] at h; simp at h
        | fatal m => rw [h1] at h; simp at h
        | ok o =>
          cases o with
          | none => simp [h1] at h
          | some s2' =>
            simp only [h1] at h
            cases h2 : apply_context fuel s2'.ctx a2 with
            | fuelOut => simp [h2] at h
            | fatal m => simp [h2] at h
            | ok a2' =>
              simp only [h2] at h
              cases h3 : apply_context fuel s2'.ctx b2 with
              | fuelOut => simp [h3] at h
              | fatal m => simp [h3] at h
              | ok b2' =>
                simp only [h3] at h
                have r1 := ih s b1 a1 s2' h1
                have r2 := ih s2' a2' b2' s2 h
                exact ⟨r2.1.trans r1.1, r2.2.trans r1.2⟩

/-- Witness for C10 at the concrete success `is_subtype 1 s Unit Unit`. -/
theorem c10_witness :
    (CheckState.mk [] 0).ctx = (CheckState.mk [] 0).ctx ∧
    (CheckState.mk [] 0).nextEVar = (CheckState.mk [] 0).nextEVar :=
  c10_success_state_unchanged 1 (CheckState.mk [] 0) .unit .unit
    (CheckState.mk [] 0) (by decide)

/-- Claim C1 (code evaluation at the failing input): the implemented
`is_subtype` has no rule for a right-hand `All`; checking `Unit` against
`All("b", Unit)` falls to the catch-all and returns `None` for every state
and every positive budget, where the claim (and the published algorithm the
spec follows) requires success. -/
theorem c1_right_all_returns_none :
    ∀ (fuel : Nat) (s : CheckState),
      is_subtype (fuel + 1) s .unit (.all "b" .unit) = .ok none := by
  intro fuel s
  rfl

/-- Claim C2 (code evaluation at the failing input): the implemented
`is_subtype` has no solving rule for an unsolved existential against a
monotype; with context `[EVar("a")]`, checking `EVar("a")` against `Unit`
(and symmetrically) falls to the catch-all and returns `None`, where the
claim requires success with `[Solved("a", Unit)]`. -/
theorem c2_evar_solve_returns_none :
    ∀ fuel : Nat,
      is_subtype (fuel + 1) (CheckState.mk [CtxMember.evar "a"] 0) (.evar "a") .unit = .ok none ∧
      is_subtype (fuel + 1) (CheckState.mk [CtxMember.evar "a"] 0) .unit (.evar "a") = .ok none := by
  intro fuel
  exact ⟨rfl, rfl⟩

/-- Claim C3 (code evaluation at the failing input): the left-`All` arm of
the implemented `is_subtype` is a stub that returns `None`; the spec's
scenario (context `[Var("a")]`, `All("b", Arr(Var("b"), Var("b"))) <:
Arr(Var("a"), Var("a"))`) therefore fails where the claim requires success
with the context restored to `[Var("a")]`. -/
theorem c3_left_all_returns_none :
    ∀ fuel : Nat,
      is_subtype (fuel + 1) (CheckState.mk [CtxMember.var "a"] 0)
        (.all "b" (.arr (.var "b") (.var "b"))) (.arr (.var "a") (.var "a")) = .ok none := by
  intro fuel
  rfl

/-- Claim C4: `is_subtype` on two arrows first checks `b1 <: a1` (swapped,
contravariant) under `s`; if that check fails the whole call fails with no
result, and if it yields `s'` the call applies `s'.ctx` as a substitution to
both codomains and returns the result of checking the substituted `a2 <: b2`
under `s'`. -/
theorem c4_arrow_contravariant (fuel : Nat) (s : CheckState) (a1 a2 b1 b2 : Ty) :
    (is_subtype fuel s b1 a1 = .ok none →
      is_subtype (fuel + 1) s (.arr a1 a2) (.arr b1 b2) = .ok none) ∧
    (∀ s' a2' b2', is_subtype fuel s b1 a1 = .ok (some s') →
      apply_context fuel s'.ctx a2 = .ok a2' →
      apply_context fuel s'.ctx b2 = .ok b2' →
      is_subtype (fuel + 1) s (.arr a1 a2) (.arr b1 b2) = is_subtype fuel s' a2' b2') := by
  constructor
  · intro h1
    simp [is_subtype, h1]
  · intro s' a2' b2' h1 h2 h3
    simp [is_subtype, h1, h2, h3]

/-- Witness for C4: a failing domain check makes the arrow check fail, and a
succeeding one chains into the codomain check. -/
theorem c4_witness :
    is_subtype 2 (CheckState.mk [] 0) (.arr (.var "x") .unit) (.arr .unit .unit) = .ok none ∧
    is_subtype 2 (CheckState.mk [] 0) (.arr .unit .unit) (.arr .unit .unit) =
      is_subtype 1 (CheckState.mk [] 0) .unit .unit :=
  ⟨(c4_arrow_contravariant 1 (CheckState.mk [] 0) (.var "x") .unit .unit .unit).1 (by decide),
   (c4_arrow_contravariant 1 (CheckState.mk [] 0) .unit .unit .unit .unit).2
     (CheckState.mk [] 0) .unit .unit (by decide) (by decide) (by decide)⟩

/-! ### The hole round trip -/

theorem dropWhile_ne_of_mem {ctx : Context} {m : CtxMember} (h : m ∈ ctx) :
    ∃ t, ctx.dropWhile (fun e => e != m) = m :: t := by
  induction ctx with
  | nil => simp at h
  | cons x xs ih =>
    by_cases hx : x = m
    · subst hx
      exact ⟨xs, by simp [List.dropWhile_cons]⟩
    · have hm : m ∈ xs := by
        cases List.mem_cons.mp h with
        | inl he => exact absurd he.symm hx
        | inr hmm => exact hmm
      obtain ⟨t, ht⟩ := ih hm
      have hbx : (x != m) = true := bne_iff_ne.mpr hx
      exact ⟨t, by simp [List.dropWhile_cons, hbx, ht]⟩

/-- Claim C7: for every context containing member `m`, `hole` returns
`some (left, right)`, and `left.add(m)` followed by appending all members of
`right` reconstructs the original context element-for-element. -/
theorem c7_hole_round_trip (ctx : Context) (m : CtxMember) (h : elem ctx m = true) :
    ∃ l r, hole ctx m = some (l, r) ∧ add l m ++ r = ctx := by
  have hm : m ∈ ctx := elem_iff.mp h
  obtain ⟨t, ht⟩ := dropWhile_ne_of_mem hm
  refine ⟨ctx.takeWhile (fun e => e != m), t, ?_, ?_⟩
  · simp [hole, split_at, h, drop1, ht]
  · calc add (ctx.takeWhile fun e => e != m) m ++ t
        = ctx.takeWhile (fun e => e != m) ++ (m :: t) := by simp [add]
      _ = ctx.takeWhile (fun e => e != m) ++ ctx.dropWhile (fun e => e != m) := by rw [ht]
      _ = ctx := List.takeWhile_append_dropWhile _ _

/-- Witness for C7 at the concrete context `[Var A, Var B, Var C]` with the
middle member excised. -/
theorem c7_witness :
    ∃ l r,
      hole [CtxMember.var "A", CtxMember.var "B", CtxMember.var "C"] (CtxMember.var "B") =
        some (l, r) ∧
      add l (CtxMember.var "B") ++ r =
        [CtxMember.var "A", CtxMember.var "B", CtxMember.var "C"] :=
  c7_hole_round_trip [CtxMember.var "A", CtxMember.var "B", CtxMember.var "C"]
    (CtxMember.var "B") (by decide)

/-- Claim C8: `solution` and `assump` abort fatally (Rust panic) when two or
more matching entries exist, return `None` with zero matches, and return the
carried type with exactly one match. -/
theorem c8_lookup_multiplicity (ctx : Context) (alpha : String) :
    (2 ≤ (ctx.filter (solved_matches alpha)).length → ∃ m, solution ctx alpha = .fatal m) ∧
    ((ctx.filter (solved_matches alpha)).length = 0 → solution ctx alpha = .ok none) ∧
    (∀ m, ctx.filter (solved_matches alpha) = [m] →
      ∃ tau, m = CtxMember.solved alpha tau ∧ solution ctx alpha = .ok (some tau)) ∧
    (2 ≤ (ctx.filter (assump_matches alpha)).length → ∃ m, assump ctx alpha = .fatal m) ∧
    ((ctx.filter (assump_matches alpha)).length = 0 → assump ctx alpha = .ok none) ∧
    (∀ m, ctx.filter (assump_matches alpha) = [m] →
      ∃ tau, m = CtxMember.assumption alpha tau ∧ assump ctx alpha = .ok (some tau)) := by
  refine ⟨?_, ?_, ?_, ?_, ?_, ?_⟩
  · intro h2
    unfold solution
    cases hf : ctx.filter (solved_matches alpha) with
    | nil => rw [hf] at h2; simp at h2
    | cons m rest =>
      cases rest with
      | nil => rw [hf] at h2; simp at h2
      | cons m2 rest2 => exact ⟨_, rfl⟩
  · intro h0
    unfold solution
    cases hf : ctx.filter (solved_matches alpha) with
    | nil => rfl
    | cons m rest => rw [hf] at h0; simp at h0
  · intro m hf
    have hm : m ∈ ctx.filter (solved_matches alpha) := by
      rw [hf]; exact List.mem_singleton.mpr rfl
    obtain ⟨hmem, hp⟩ := List.mem_filter.mp hm
    cases m with
    | solved e2 t =>
      have he : e2 = alpha := by simpa [solved_matches] using hp
      subst he
      refine ⟨t, rfl, ?_⟩
      unfold solution
      rw [hf]
      rfl
    | var v => simp [solved_matches] at hp
    | assumption x t => simp [solved_matches] at hp
    | evar a => simp [solved_matches] at hp
    | marker a => simp [solved_matches] at hp
  · intro h2
    unfold assump
    cases hf : ctx.filter (assump_matches alpha) with
    | nil => rw [hf] at h2; simp at h2
    | cons m rest =>
      cases rest with
      | nil => rw [hf] at h2; simp at h2
      | cons m2 rest2 => exact ⟨_, rfl⟩
  · intro h0
    unfold assump
    cases hf : ctx.filter (assump_matches alpha) with
    | nil => rfl
    | cons m rest => rw [hf] at h0; simp at h0
  · intro m hf
    have hm : m ∈ ctx.filter (assump_matches alpha) := by
      rw [hf]; exact List.mem_singleton.mpr rfl
    obtain ⟨hmem, hp⟩ := List.mem_filter.mp hm
    cases m with
    | assumption x t =>
      have he : x = alpha := by simpa [assump_matches] using hp
      subst he
      refine ⟨t, rfl, ?_⟩
      unfold assump
      rw [hf]
      rfl
    | var v => simp [assump_matches] at hp
    | solved e2 t => simp [assump_matches] at hp
    | evar a => simp [assump_matches] at hp
    | marker a => simp [assump_matches] at hp

/-- Witness for C8: each multiplicity case of both lookups exercised at a
concrete context. -/
theorem c8_witness :
    (∃ m, solution [CtxMember.solved "a" .unit, CtxMember.solved "a" .unit] "a" = .fatal m) ∧
    solution [] "a" = .ok none ∧
    (∃ tau, CtxMember.solved "a" Ty.unit = CtxMember.solved "a" tau ∧
      solution [CtxMember.solved "a" .unit] "a" = .ok (some tau)) ∧
    (∃ m, assump [CtxMember.assumption "x" .unit, CtxMember.assumption "x" .unit] "x" =
      .fatal m) ∧
    assump [] "x" = .ok none ∧
    (∃ tau, CtxMember.assumption "x" Ty.unit = CtxMember.assumption "x" tau ∧
      assump [CtxMember.assumption "x" .unit] "x" = .ok (some tau)) := by
  refine ⟨?_, ?_, ?_, ?_, ?_, ?_⟩
  · exact (c8_lookup_multiplicity
      [CtxMember.solved "a" .unit, CtxMember.solved "a" .unit] "a").1 (by decide)
  · exact (c8_lookup_multiplicity [] "a").2.1 (by decide)
  · exact (c8_lookup_multiplicity [CtxMember.solved "a" .unit] "a").2.2.1
      (CtxMember.solved "a" .unit) (by decide)
  · exact (c8_lookup_multiplicity
      [CtxMember.assumption "x" .unit, CtxMember.assumption "x" .unit] "x").2.2.2.1 (by decide)
  · exact (c8_lookup_multiplicity [] "x").2.2.2.2.1 (by decide)
  · exact (c8_lookup_multiplicity [CtxMember.assumption "x" .unit] "x").2.2.2.2.2
      (CtxMember.assumption "x" .unit) (by decide)

/-! ### Well-formedness of existential variables -/

theorem solution_of_unique_mem {ctx : Context} {alpha : String} {tau : Ty}
    (hmem : CtxMember.solved alpha tau ∈ ctx)
    (hle : (ctx.filter (solved_matches alpha)).length ≤ 1) :
    solution ctx alpha = .ok (some tau) := by
  have hmf : CtxMember.solved alpha tau ∈ ctx.filter (solved_matches alpha) :=
    List.mem_filter.mpr ⟨hmem, by simp [solved_matches]⟩
  unfold solution
  cases hfil : ctx.filter (solved_matches alpha) with
  | nil => rw [hfil] at hmf; simp at hmf
  | cons m rest =>
    cases rest with
    | nil =>
      rw [hfil] at hmf
      have hm : CtxMember.solved alpha tau = m := List.mem_singleton.mp hmf
      rw [← hm]
      rfl
    | cons m2 rest2 => rw [hfil] at hle; simp at hle

/-- Counterexample to C6 as stated: with two `Solved("a",·)` entries and no
`EVar("a")` entry the membership disjunction holds, yet
`is_type_well_formed` does not return true — the solution lookup aborts
fatally on the duplicate entries. -/
theorem c6_counterexample :
    CtxMember.solved "a" Ty.unit ∈
      ([CtxMember.solved "a" .unit, CtxMember.solved "a" .unit] : Context) ∧
    is_type_well_formed [CtxMember.solved "a" .unit, CtxMember.solved "a" .unit]
      (.evar "a") ≠ .ok true :=
  ⟨by decide, by decide⟩

/-- Claim C6 (amended): provided the context contains an `EVar(α)` entry or
at most one `Solved(α,·)` entry (otherwise the lookup aborts fatally),
`is_type_well_formed(ctx, EVar(α))` returns true iff the context contains an
`EVar(α)` entry or a `Solved(α,·)` entry; and for every `v` and body `B`,
`is_type_well_formed(ctx, All(v,B))` equals `is_type_well_formed` of `B`
under `ctx` extended with `Var(v)`, the input context itself being
unmodified (the embedding is functional, so the extension is local by
construction). -/
theorem c6_well_formedness (ctx : Context) (alpha : String)
    (h : elem ctx (.evar alpha) = true ∨ (ctx.filter (solved_matches alpha)).length ≤ 1) :
    (is_type_well_formed ctx (.evar alpha) = .ok true ↔
      CtxMember.evar alpha ∈ ctx ∨ ∃ tau, CtxMember.solved alpha tau ∈ ctx) ∧
    (∀ v B, is_type_well_formed ctx (.all v B) =
      is_type_well_formed (add ctx (.var v)) B) := by
  constructor
  · by_cases he : elem ctx (.evar alpha) = true
    · constructor
      · intro _
        exact Or.inl (elem_iff.mp he)
      · intro _
        simp [is_type_well_formed, he]
    · have hle : (ctx.filter (solved_matches alpha)).length ≤ 1 := h.resolve_left he
      constructor
      · intro hwf
        right
        cases hsol : solution ctx alpha with
        | ok o =>
          cases o with
          | some tau => exact ⟨tau, solution_ok_some hsol⟩
          | none => exfalso; simp [is_type_well_formed, he, hsol] at hwf
        | fatal m => exfalso; simp [is_type_well_formed, he, hsol] at hwf
        | fuelOut => exact absurd hsol (solution_ne_fuelOut ctx alpha)
      · intro hmem
        cases hmem with
        | inl hev => exact absurd (elem_iff.mpr hev) he
        | inr hsolv =>
          obtain ⟨tau, htau⟩ := hsolv
          have hsol := solution_of_unique_mem htau hle
          simp [is_type_well_formed, he, hsol]
  · intro v B
    rfl

/-- Witness for C6 at the concrete context `[Solved("a", Unit)]`. -/
theorem c6_witness :
    (is_type_well_formed [CtxMember.solved "a" Ty.unit] (.evar "a") = .ok true ↔
      CtxMember.evar "a" ∈ ([CtxMember.solved "a" Ty.unit] : Context) ∨
        ∃ tau, CtxMember.solved "a" tau ∈ ([CtxMember.solved "a" Ty.unit] : Context)) ∧
    (∀ v B, is_type_well_formed [CtxMember.solved "a" Ty.unit] (.all v B) =
      is_type_well_formed (add [CtxMember.solved "a" Ty.unit] (.var v)) B) :=
  c6_well_formedness [CtxMember.solved "a" Ty.unit] "a" (Or.inr (by decide))

/-! ### Properties of `apply_context` results -/

theorem apply_context_result_unsolved :
    ∀ (fuel : Nat) (ctx : Context) (t r : Ty),
      apply_context fuel ctx t = .ok r →
      ∀ beta, beta ∈ evars r → solution ctx beta = .ok none := by
  intro fuel
  induction fuel with
  | zero => intro ctx t r h; simp [apply_context] at h
  | succ fuel ih =>
    intro ctx t r h beta hbeta
    cases t with
    | unit =>
      have hr : Ty.unit = r := by simpa [apply_context] using h
      rw [← hr] at hbeta
      simp [evars] at hbeta
    | var v =>
      have hr : Ty.var v = r := by simpa [apply_context] using h
      rw [← hr] at hbeta
      simp [evars] at hbeta
    | evar alpha =>
      simp only [apply_context] at h
      cases hsol : solution ctx alpha with
      | ok o =>
        cases o with
        | some tau => rw [hsol] at h; exact ih ctx tau r h beta hbeta
        | none =>
          rw [hsol] at h
          have hr : Ty.evar alpha = r := by simpa using h
          rw [← hr] at hbeta
          simp [evars] at hbeta
          rw [hbeta]
          exact hsol
      | fatal m => rw [hsol] at h; simp at h
      | fuelOut => rw [hsol] at h; simp at h
    | arr a b =>
      simp only [apply_context] at h
      cases ha : apply_context fuel ctx a with
      | fatal m => rw [ha] at h; simp at h
      | fuelOut => rw [ha] at h; simp at h
      | ok a2 =>
        rw [ha] at h
        cases hb : apply_context fuel ctx b with
        | fatal m => rw [hb] at h; simp at h
        | fuelOut => rw [hb] at h; simp at h
        | ok b2 =>
          rw [hb] at h
          have hr : Ty.arr a2 b2 = r := by simpa using h
          rw [← hr] at hbeta
          simp [evars] at hbeta
          cases hbeta with
          | inl hba => exact ih ctx a a2 ha beta hba
          | inr hbb => exact ih ctx b b2 hb beta hbb
    | all v t =>
      simp only [apply_context] at h
      cases ht : apply_context fuel ctx t with
      | fatal m => rw [ht] at h; simp at h
      | fuelOut => rw [ht] at h; simp at h
      | ok t2 =>
        rw [ht] at h
        have hr : Ty.all v t2 = r := by simpa using h
        rw [← hr] at hbeta
        simp [evars] at hbeta
        exact ih ctx t t2 ht beta hbeta

theorem apply_context_preserves_mono :
    ∀ (fuel : Nat) (ctx : Context) (t r : Ty),
      apply_context fuel ctx t = .ok r → is_mono t = true → solved_mono ctx →
      is_mono r = true := by
  intro fuel
  induction fuel with
  | zero => intro ctx t r h; simp [apply_context] at h
  | succ fuel ih =>
    intro ctx t r h hmono hsm
    cases t with
    | unit =>
      have hr : Ty.unit = r := by simpa [apply_context] using h
      rw [← hr]
      rfl
    | var v =>
      have hr : Ty.var v = r := by simpa [apply_context] using h
      rw [← hr]
      rfl
    | evar alpha =>
      simp only [apply_context] at h
      cases hsol : solution ctx alpha with
      | ok o =>
        cases o with
        | some tau =>
          rw [hsol] at h
          exact ih ctx tau r h (hsm alpha tau (solution_ok_some hsol)) hsm
        | none =>
          rw [hsol] at h
          have hr : Ty.evar alpha = r := by simpa using h
          rw [← hr]
          rfl
      | fatal m => rw [hsol] at h; simp at h
      | fuelOut => rw [hsol] at h; simp at h
    | arr a b =>
      simp only [is_mono, Bool.and_eq_true] at hmono
      simp only [apply_context] at h
      cases ha : apply_context fuel ctx a with
      | fatal m => rw [ha] at h; simp at h
      | fuelOut => rw [ha] at h; simp at h
      | ok a2 =>
        rw [ha] at h
        cases hb : apply_context fuel ctx b with
        | fatal m => rw [hb] at h; simp at h
        | fuelOut => rw [hb] at h; simp at h
        | ok b2 =>
          rw [hb] at h
          have hr : Ty.arr a2 b2 = r := by simpa using h
          rw [← hr]
          simp [is_mono, ih ctx a a2 ha hmono.1 hsm, ih ctx b b2 hb hmono.2 hsm]
    | all v t => simp [is_mono] at hmono

theorem apply_context_fixed :
    ∀ (t : Ty) (ctx : Context),
      (∀ beta, beta ∈ evars t → solution ctx beta = .ok none) →
      ∃ N, ∀ fuel, N ≤ fuel → apply_context fuel ctx t = .ok t := by
  intro t
  induction t with
  | unit =>
    intro ctx h
    refine ⟨1, fun fuel hf => ?_⟩
    obtain ⟨f, rfl⟩ : ∃ f, fuel = f + 1 := ⟨fuel - 1, by omega⟩
    simp [apply_context]
  | var v =>
    intro ctx h
    refine ⟨1, fun fuel hf => ?_⟩
    obtain ⟨f, rfl⟩ : ∃ f, fuel = f + 1 := ⟨fuel - 1, by omega⟩
    simp [apply_context]
  | evar alpha =>
    intro ctx h
    have hsol := h alpha (by simp [evars])
    refine ⟨1, fun fuel hf => ?_⟩
    obtain ⟨f, rfl⟩ : ∃ f, fuel = f + 1 := ⟨fuel - 1, by omega⟩
    simp [apply_context, hsol]
  | arr a b iha ihb =>
    intro ctx h
    obtain ⟨N1, h1⟩ := iha ctx (fun beta hb => h beta (by simp [evars]; exact Or.inl hb))
    obtain ⟨N2, h2⟩ := ihb ctx (fun beta hb => h beta (by simp [evars]; exact Or.inr hb))
    refine ⟨max N1 N2 + 1, fun fuel hf => ?_⟩
    obtain ⟨f, rfl⟩ : ∃ f, fuel = f + 1 := ⟨fuel - 1, by omega⟩
    have hfa : N1 ≤ f := by omega
    have hfb : N2 ≤ f := by omega
    simp [apply_context, h1 f hfa, h2 f hfb]
  | all v t iht =>
    intro ctx h
    obtain ⟨N1, h1⟩ := iht ctx (fun beta hb => h beta (by simpa [evars] using hb))
    refine ⟨N1 + 1, fun fuel hf => ?_⟩
    obtain ⟨f, rfl⟩ : ∃ f, fuel = f + 1 := ⟨fuel - 1, by omega⟩
    have hfa : N1 ≤ f := by omega
    simp [apply_context, h1 f hfa]

theorem apply_context_fatal_source :
    ∀ (fuel : Nat) (ctx : Context) (t : Ty) (m : String),
      apply_context fuel ctx t = .fatal m → ∃ beta, solution ctx beta = .fatal m := by
  intro fuel
  induction fuel with
  | zero => intro ctx t m h; simp [apply_context] at h
  | succ fuel ih =>
    intro ctx t m h
    cases t with
    | unit => simp [apply_context] at h
    | var v => simp [apply_context] at h
    | evar alpha =>
      simp only [apply_context] at h
      cases hsol : solution ctx alpha with
      | ok o =>
        cases o with
        | some tau => rw [hsol] at h; exact ih ctx tau m h
        | none => rw [hsol] at h; simp at h
      | fatal m2 =>
        rw [hsol] at h
        have hm : m2 = m := by simpa using h
        exact ⟨alpha, hm ▸ hsol⟩
      | fuelOut => rw [hsol] at h; simp at h
    | arr a b =>
      simp only [apply_context] at h
      cases ha : apply_context fuel ctx a with
      | fatal m2 =>
        rw [ha] at h
        have hm : m2 = m := by simpa using h
        exact ih ctx a m (hm ▸ ha)
      | fuelOut => rw [ha] at h; simp at h
      | ok a2 =>
        rw [ha] at h
        cases hb : apply_context fuel ctx b with
        | fatal m2 =>
          rw [hb] at h
          have hm : m2 = m := by simpa using h
          exact ih ctx b m (hm ▸ hb)
        | fuelOut => rw [hb] at h; simp at h
        | ok b2 => rw [hb] at h; simp at h
    | all v t =>
      simp only [apply_context] at h
      cases ht : apply_context fuel ctx t with
      | fatal m2 =>
        rw [ht] at h
        have hm : m2 = m := by simpa using h
        exact ih ctx t m (hm ▸ ht)
      | fuelOut => rw [ht] at h; simp at h
      | ok t2 => rw [ht] at h; simp at h

/-! ### The uniqueness invariant rules out fatal lookups -/

theorem uniq_filter_length (beta : String) :
    ∀ ctx : Context, uniq_solved ctx = true →
      (ctx.filter (solved_matches beta)).length ≤ 1 := by
  intro ctx
  induction ctx with
  | nil => intro _; simp
  | cons m rest ih =>
    intro hu
    simp only [uniq_solved, Bool.and_eq_true] at hu
    obtain ⟨hm, hrest⟩ := hu
    by_cases hsm : solved_matches beta m = true
    · cases m with
      | solved a t =>
        have ha : a = beta := by simpa [solved_matches] using hsm
        subst ha
        simp only [solved_name] at hm
        have hrf : rest.filter (solved_matches a) = [] := by
          rw [List.filter_eq_nil_iff]
          intro m2 hm2
          have hall := (List.all_eq_true.mp hm) m2 hm2
          cases m2 with
          | solved b t2 =>
            have hba : ¬ b = a := by simpa [solved_name] using hall
            simp [solved_matches, hba]
          | var v => simp [solved_matches]
          | assumption x t2 => simp [solved_matches]
          | evar e => simp [solved_matches]
          | marker e => simp [solved_matches]
        simp [List.filter_cons, hsm, hrf]
      | var v => simp [solved_matches] at hsm
      | assumption x t => simp [solved_matches] at hsm
      | evar e => simp [solved_matches] at hsm
      | marker e => simp [solved_matches] at hsm
    · have heq : List.filter (solved_matches beta) (m :: rest) =
          List.filter (solved_matches beta) rest := by
        simp [List.filter_cons, hsm]
      rw [heq]
      exact ih hrest

theorem uniq_solution_ok (ctx : Context) (hu : uniq_solved ctx = true) (beta : String) :
    ∃ o, solution ctx beta = .ok o := by
  have hlen := uniq_filter_length beta ctx hu
  unfold solution
  cases hfil : ctx.filter (solved_matches beta) with
  | nil => exact ⟨none, rfl⟩
  | cons m rest =>
    cases rest with
    | nil => exact ⟨get_type m, rfl⟩
    | cons m2 rest2 => rw [hfil] at hlen; simp at hlen

/-! ### Reflexivity -/

theorem is_subtype_refl_unsolved :
    ∀ (t : Ty) (s : CheckState),
      is_mono t = true →
      (∀ beta, beta ∈ evars t → solution s.ctx beta = .ok none) →
      ∃ N, ∀ fuel, N ≤ fuel → is_subtype fuel s t t = .ok (some s) := by
  intro t
  induction t with
  | unit =>
    intro s _ _
    refine ⟨1, fun fuel hf => ?_⟩
    obtain ⟨f, rfl⟩ : ∃ f, fuel = f + 1 := ⟨fuel - 1, by omega⟩
    simp [is_subtype]
  | var v =>
    intro s _ _
    refine ⟨1, fun fuel hf => ?_⟩
    obtain ⟨f, rfl⟩ : ∃ f, fuel = f + 1 := ⟨fuel - 1, by omega⟩
    simp [is_subtype]
  | evar alpha =>
    intro s _ _
    refine ⟨1, fun fuel hf => ?_⟩
    obtain ⟨f, rfl⟩ : ∃ f, fuel = f + 1 := ⟨fuel - 1, by omega⟩
    simp [is_subtype]
  | all v t iht => intro s hmono _; simp [is_mono] at hmono
  | arr a b iha ihb =>
    intro s hmono hns
    simp only [is_mono, Bool.and_eq_true] at hmono
    obtain ⟨N1, h1⟩ := iha s hmono.1 (fun beta hb => hns beta (by simp [evars]; exact Or.inl hb))
    obtain ⟨N2, h2⟩ := ihb s hmono.2 (fun beta hb => hns beta (by simp [evars]; exact Or.inr hb))
    obtain ⟨NP, hP⟩ := apply_context_fixed b s.ctx
      (fun beta hb => hns beta (by simp [evars]; exact Or.inr hb))
    refine ⟨max (max N1 N2) NP + 1, fun fuel hf => ?_⟩
    obtain ⟨f, rfl⟩ : ∃ f, fuel = f + 1 := ⟨fuel - 1, by omega⟩
    have e1 := h1 f (by omega)
    have eP := hP f (by omega)
    simp only [is_subtype, e1, eP]
    exact h2 f (by omega)

theorem is_subtype_refl_aux (s : CheckState)
    (hinv : ordering_inv s.ctx) (huniq : uniq_solved s.ctx = true)
    (hsm : solved_mono s.ctx) :
    ∀ t : Ty, is_mono t = true →
      ∃ N, ∀ fuel, N ≤ fuel → is_subtype fuel s t t = .ok (some s) := by
  intro t
  induction t with
  | unit =>
    intro _
    refine ⟨1, fun fuel hf => ?_⟩
    obtain ⟨f, rfl⟩ : ∃ f, fuel = f + 1 := ⟨fuel - 1, by omega⟩
    simp [is_subtype]
  | var v =>
    intro _
    refine ⟨1, fun fuel hf => ?_⟩
    obtain ⟨f, rfl⟩ : ∃ f, fuel = f + 1 := ⟨fuel - 1, by omega⟩
    simp [is_subtype]
  | evar alpha =>
    intro _
    refine ⟨1, fun fuel hf => ?_⟩
    obtain ⟨f, rfl⟩ : ∃ f, fuel = f + 1 := ⟨fuel - 1, by omega⟩
    simp [is_subtype]
  | all v t iht => intro hmono; simp [is_mono] at hmono
  | arr a b iha ihb =>
    intro hmono
    simp only [is_mono, Bool.and_eq_true] at hmono
    obtain ⟨N1, h1⟩ := iha hmono.1
    obtain ⟨Nap, hapne⟩ := apply_context_exists_fuel s.ctx hinv s.ctx.length b
      (fun beta _ j sigma hj => getElem_some_lt hj)
    cases hap : apply_context Nap s.ctx b with
    | fuelOut => exact absurd hap hapne
    | fatal m =>
      obtain ⟨beta, hbeta⟩ := apply_context_fatal_source Nap s.ctx b m hap
      obtain ⟨o, ho⟩ := uniq_solution_ok s.ctx huniq beta
      rw [ho] at hbeta
      exact absurd hbeta (by simp)
    | ok b2 =>
      have hb2mono : is_mono b2 = true :=
        apply_context_preserves_mono Nap s.ctx b b2 hap hmono.2 hsm
      have hb2ns : ∀ beta, beta ∈ evars b2 → solution s.ctx beta = .ok none :=
        apply_context_result_unsolved Nap s.ctx b b2 hap
      obtain ⟨N2, h2⟩ := is_subtype_refl_unsolved b2 s hb2mono hb2ns
      refine ⟨max (max N1 N2) Nap + 1, fun fuel hf => ?_⟩
      obtain ⟨f, rfl⟩ : ∃ f, fuel = f + 1 := ⟨fuel - 1, by omega⟩
      have e1 := h1 f (by omega)
      have eap : apply_context f s.ctx b = .ok b2 := by
        rw [apply_context_mono Nap f s.ctx b (by omega) (by simp [hap]), hap]
      simp only [is_subtype, e1, eap]
      exact h2 f (by omega)

/-- Counterexample to C5 as stated: with the context `[Solved("a",
All("b", Unit))]` (legal input for the claim, which constrains only the type
`T`), the quantifier-free, well-formed type `T = Arr(Unit, EVar("a"))` is
not related to itself: applying the context to the codomain produces an
`All` type, whose comparison against itself falls into the stubbed left-`All`
arm and fails (shown at two budgets; the result is fuel-insensitive). -/
theorem c5_counterexample :
    is_mono (Ty.arr .unit (.evar "a")) = true ∧
    is_type_well_formed [CtxMember.solved "a" (.all "b" .unit)]
      (.arr .unit (.evar "a")) = .ok true ∧
    is_subtype 10 (CheckState.mk [CtxMember.solved "a" (.all "b" .unit)] 0)
      (.arr .unit (.evar "a")) (.arr .unit (.evar "a")) = .ok none ∧
    is_subtype 20 (CheckState.mk [CtxMember.solved "a" (.all "b" .unit)] 0)
      (.arr .unit (.evar "a")) (.arr .unit (.evar "a")) = .ok none :=
  ⟨by decide, by decide, by decide, by decide⟩

/-- Claim C5 (amended): for every `CheckState` whose context satisfies the
ordering invariant, has at most one `Solved` entry per name, and stores only
quantifier-free (monotype) solutions — the spec's context invariants — and
every type `T` containing no `All` subterm and well-formed under the
context, `is_subtype s T T` succeeds (with every sufficient budget) and
returns the state unchanged. -/
theorem c5_reflexivity_amended (s : CheckState) (t : Ty)
    (hinv : ordering_inv s.ctx) (huniq : uniq_solved s.ctx = true)
    (hsm : solved_mono s.ctx) (hmono : is_mono t = true)
    (_hwf : is_type_well_formed s.ctx t = .ok true) :
    ∃ N, ∀ fuel, N ≤ fuel → is_subtype fuel s t t = .ok (some s) :=
  is_subtype_refl_aux s hinv huniq hsm t hmono

/-- Witness for C5 at the concrete state with context `[Solved("a", Unit)]`
and type `Arr(Unit, EVar("a"))`. -/
theorem c5_witness :
    ∃ N, ∀ fuel, N ≤ fuel →
      is_subtype fuel (CheckState.mk [CtxMember.solved "a" Ty.unit] 0)
        (.arr .unit (.evar "a")) (.arr .unit (.evar "a")) =
      .ok (some (CheckState.mk [CtxMember.solved "a" Ty.unit] 0)) :=
  c5_reflexivity_amended (CheckState.mk [CtxMember.solved "a" Ty.unit] 0)
    (.arr .unit (.evar "a"))
    (by
      intro i alpha tau hi beta hbeta j sigma hj
      cases i with
      | zero =>
        simp at hi
        obtain ⟨h1, h2⟩ := hi
        subst h2
        simp [evars] at hbeta
      | succ n => simp at hi)
    (by decide)
    (by
      intro alpha tau hmem
      simp at hmem
      obtain ⟨h1, h2⟩ := hmem
      subst h2
      rfl)
    (by decide) (by decide)

end Infer
